import Mathlib

/-!
Shallow embedding of the discovery-and-ingestion pipeline of `git-tracker`
(src/fs.rs, src/files.rs, src/git.rs, src/data.rs, src/cmd/find.rs), together
with theorems settling the specification claims about it.

Conventions of the embedding:
  * Filesystem paths are lists of name components (`Path`).
  * The filesystem itself is a finite association list from absolute paths to
    nodes, as distinguished by `symlink_metadata`: directory (with its child
    names), symbolic link (with its raw target), or any other file type.
  * External `git` invocations are oracles: a `GitCmds` record gives, per
    repository directory, the outcome of each command the code runs.
  * The `while` loop of the walker's `next` and symlink resolution are given
    explicit fuel, since the source itself can loop on symlink cycles.
-/

namespace GitTracker

abbrev Name := String

abbrev Path := List Name

/-- Node kinds, as the walker distinguishes them via `fs::symlink_metadata`:
a directory (with the names of its immediate children, in `read_dir` order),
a symbolic link (with the raw target returned by `fs::read_link`), or any
other file type (`Ok(_) => {}` in the source). -/
inductive Node where
  | dir (children : List Name)
  | symlink (target : Path)
  | file
deriving DecidableEq, Repr

/-- A filesystem: finite association list from absolute path to node. -/
abbrev Fsys := List (Path × Node)

/-- Lookup of a path's node, modelling `fs::symlink_metadata`: `none` covers
both a missing path and a metadata read error (the source skips in either
case). -/
def Fsys.lookup (fs : Fsys) (p : Path) : Option Node :=
  (fs.find? (fun e => e.1 == p)).map (fun e => e.2)

/-- Symlink-chasing existence test with fuel, modelling `Path::try_exists`
(which follows symlinks; a broken link or a symlink loop reports false). -/
def Fsys.existsAtFuel (fs : Fsys) : Nat → Path → Bool
  | 0, _ => false
  | n + 1, p =>
    match fs.lookup p with
    | none => false
    | some (Node.symlink t) => fs.existsAtFuel n t
    | some _ => true

/-- Existence test, with fuel bounded by the (finite) filesystem size. -/
def Fsys.existsAt (fs : Fsys) (p : Path) : Bool :=
  fs.existsAtFuel (fs.length + 1) p

/-- Base name of a path, modelling `Path::file_name`. -/
def baseName (p : Path) : Option Name :=
  p.getLast?

/-- Push a batch of paths onto a LIFO frontier (Rust `Vec::push` in iteration
order; the head of the Lean list is the top of the stack). -/
def pushAll (stack : List Path) (items : List Path) : List Path :=
  items.foldl (fun s x => x :: s) stack

/-- Walker state, transcribed from `struct Dirs` in src/fs.rs (the same
structure appears in src/files.rs). -/
structure Dirs where
  targetName : Name
  follow : Bool
  ignore : List Path
  frontier : List Path
deriving DecidableEq, Repr

/-- Constructor transcribed from `fs::find_dirs`: frontier seeded with the
root. -/
def findDirs (root : Path) (targetName : Name) (follow : Bool)
    (ignore : List Path) : Dirs :=
  { targetName := targetName, follow := follow, ignore := ignore,
    frontier := [root] }

/-- One call to `Dirs::next` (src/fs.rs lines 34-105), with fuel for the
`while let Some(path) = self.frontier.pop()` loop.  Faithful order of checks:
ignore-set membership (exact path equality via `HashSet::contains`), then
`try_exists`, then `symlink_metadata` dispatch: symlink (skip unless `follow`,
else push the link target), directory (yield if the base name equals the
target marker name, without descending; otherwise push every child), any
other file type or metadata error (skip). -/
def Dirs.next (fs : Fsys) : Nat → Dirs → Option (Path × Dirs)
  | 0, _ => none
  | fuel + 1, d =>
    match d.frontier with
    | [] => none
    | path :: rest =>
      if d.ignore.contains path then
        Dirs.next fs fuel { d with frontier := rest }
      else if ! fs.existsAt path then
        Dirs.next fs fuel { d with frontier := rest }
      else
        match fs.lookup path with
        | some (Node.symlink t) =>
          if d.follow then
            Dirs.next fs fuel { d with frontier := t :: rest }
          else
            Dirs.next fs fuel { d with frontier := rest }
        | some (Node.dir children) =>
          if baseName path = some d.targetName then
            some (path, { d with frontier := rest })
          else
            Dirs.next fs fuel
              { d with frontier :=
                  pushAll rest (children.map (fun c => path ++ [c])) }
        | some Node.file => Dirs.next fs fuel { d with frontier := rest }
        | none => Dirs.next fs fuel { d with frontier := rest }

/-- Drain the walker, collecting every yielded match (the consuming iteration
in `locals_worker`). -/
def Dirs.run (fs : Fsys) : Nat → Dirs → List Path
  | 0, _ => []
  | fuel + 1, d =>
    match Dirs.next fs (fuel + 1) d with
    | none => []
    | some (p, d') => p :: Dirs.run fs fuel d'

/-! ### Data model (src/git.rs lines 12-36, mirrored in src/data.rs) -/

/-- Identity of an inspection target, transcribed from `enum Link`. -/
inductive Link where
  | fs (dir : Path)
  | net (url : String)
deriving DecidableEq, Repr

/-- A branch: its root commits and leaf commit, transcribed from
`struct Branch` (the source's `HashSet<String>` of roots is a list here; only
membership and emptiness are ever consulted). -/
structure Branch where
  roots : List String
  leaf : String
deriving DecidableEq, Repr

/-- Repository facts, transcribed from `struct Repo`.  The source's `HashMap`s
are association lists with insert-overwrites-existing-key semantics. -/
structure Repo where
  description : Option String
  remotes : List (String × String)
  branches : List (String × Branch)
deriving DecidableEq, Repr

/-- One inspection outcome, transcribed from `struct View`. -/
structure View where
  host : String
  link : Link
  repo : Option Repo
deriving DecidableEq, Repr

/-- Insertion into an association list with `HashMap::insert` semantics: a
later insert of the same key overwrites the earlier binding. -/
def insertAssoc {β : Type} (m : List (String × β)) (k : String) (v : β) :
    List (String × β) :=
  m.filter (fun e => !(e.1 == k)) ++ [(k, v)]

/-! ### External `git` oracles and fact extraction (src/git.rs) -/

/-- Outcomes of the external `git` invocations the extraction code performs
against one repository directory: the contents of the `description` file
(`tokio::fs::read_to_string`), the output lines of `git show-ref --branches`,
of `git rev-list --max-parents=0 <leaf> --` per leaf hash, and of
`git remote -v`.  An `Except.error` is a failed read or a non-zero exit. -/
structure GitCmds where
  descr : Except String String
  showRef : Except String (List String)
  revList : String → Except String (List String)
  remoteV : Except String (List String)

/-- Accumulating splitter over characters: `cur` holds the reversed current
token; whitespace ends a token, empty tokens are dropped. -/
def wsFieldsGo : List Char → List Char → List String
  | cur, [] => if cur = [] then [] else [String.mk cur.reverse]
  | cur, c :: rest =>
    if c.isWhitespace then
      if cur = [] then wsFieldsGo [] rest
      else String.mk cur.reverse :: wsFieldsGo [] rest
    else
      wsFieldsGo (c :: cur) rest

/-- Whitespace fields of a line, modelling `str::split_whitespace` (split on
whitespace runs, no empty fields). -/
def wsFields (s : String) : List String :=
  wsFieldsGo [] s.data

/-- Character-level test that `s` begins with `marker`, modelling
`str::starts_with`. -/
def startsWithStr (s marker : String) : Bool :=
  marker.data.isPrefixOf s.data

/-- Character-level model of `str::strip` of a leading marker: the remainder
of `nm` after `marker`, when `marker` leads it. -/
def stripLeading (marker nm : String) : Option String :=
  if marker.data.isPrefixOf nm.data then
    some (String.mk (nm.data.drop marker.data.length))
  else
    none

/-- Parsing of one `show-ref` output line, transcribed from
`impl FromStr for TreeRef`: first field is the hash, second the ref name, and
a third field is an error.  Returns `(name, hash)`. -/
def parseTreeRef (s : String) : Except String (String × String) :=
  match wsFields s with
  | [] => Except.error "Ref line is empty"
  | [_] => Except.error "Ref line missing path"
  | [hash, nm] => Except.ok (nm, hash)
  | _ => Except.error "Ref line has too many fields"

/-- Parsing of one `remote -v` output line, transcribed from
`impl FromStr for RemoteRef`: first field is the remote name, second the
address; extra fields (the `(fetch)`/`(push)` suffix) are ignored. -/
def parseRemoteRef (s : String) : Except String (String × String) :=
  match wsFields s with
  | [] => Except.error "Remote line is empty"
  | [_] => Except.error "Remote line missing addr"
  | nm :: addr :: _ => Except.ok (nm, addr)

/-- The `refs/heads/` branch-ref marker stripped by `branch_leaves`. -/
def refsHeads : String := "refs/heads/"

/-- Name with the leading `refs/heads/` removed, when present (the source's
`name.strip` of that literal). -/
def dropRefsHeads (nm : String) : Option String :=
  stripLeading refsHeads nm

/-- Loop body of `branch_leaves`: parse each line, keep refs under
`refs/heads/`, any parse failure fails the whole extraction (`?`). -/
def branchLeavesGo (acc : List (String × String)) :
    List String → Except String (List (String × String))
  | [] => Except.ok acc
  | line :: rest =>
    match parseTreeRef line with
    | Except.error e => Except.error e
    | Except.ok nh =>
      match dropRefsHeads nh.1 with
      | some n => branchLeavesGo (insertAssoc acc n nh.2) rest
      | none => branchLeavesGo acc rest

/-- Transcription of `branch_leaves` (src/git.rs lines 152-169). -/
def branchLeaves (g : GitCmds) : Except String (List (String × String)) :=
  match g.showRef with
  | Except.error e => Except.error e
  | Except.ok lines => branchLeavesGo [] lines

/-- Transcription of `branch_roots` (src/git.rs lines 215-232): the
`rev-list --max-parents=0` output lines are the roots, and zero roots is an
error (`bail!`), never an empty set. -/
def branchRoots (g : GitCmds) (leafHash : String) :
    Except String (List String) :=
  match g.revList leafHash with
  | Except.error e => Except.error e
  | Except.ok roots =>
    if roots = [] then
      Except.error "Found 0 roots for leaf hash"
    else
      Except.ok roots

/-- Loop body of `branches`: for each branch leaf, look up its roots; any
failure fails the whole extraction (`?`). -/
def branchesGo (g : GitCmds) (acc : List (String × Branch)) :
    List (String × String) → Except String (List (String × Branch))
  | [] => Except.ok acc
  | nl :: rest =>
    match branchRoots g nl.2 with
    | Except.error e => Except.error e
    | Except.ok roots =>
      branchesGo g (insertAssoc acc nl.1 { roots := roots, leaf := nl.2 })
        rest

/-- Transcription of `branches` (src/git.rs lines 140-150). -/
def branches (g : GitCmds) : Except String (List (String × Branch)) :=
  match branchLeaves g with
  | Except.error e => Except.error e
  | Except.ok leaves => branchesGo g [] leaves

/-- Loop body of `remote_refs`: parse each `remote -v` line; any parse
failure fails the whole extraction (`?`). -/
def remoteRefsGo (acc : List (String × String)) :
    List String → Except String (List (String × String))
  | [] => Except.ok acc
  | line :: rest =>
    match parseRemoteRef line with
    | Except.error e => Except.error e
    | Except.ok na => remoteRefsGo (insertAssoc acc na.1 na.2) rest

/-- Transcription of `remote_refs` (src/git.rs lines 201-213). -/
def remoteRefs (g : GitCmds) : Except String (List (String × String)) :=
  match g.remoteV with
  | Except.error e => Except.error e
  | Except.ok lines => remoteRefsGo [] lines

/-- Transcription of `description` (src/git.rs lines 245-250): a read failure
propagates; otherwise the content is kept unless it starts with
`Unnamed repository;`. -/
def descriptionOf (g : GitCmds) : Except String (Option String) :=
  g.descr.map (fun s =>
    if startsWithStr s "Unnamed repository;" then none else some s)

/-- Transcription of `Repo::read_from_fs` (src/git.rs lines 51-63):
description, then branches, then remotes (struct-literal evaluation order);
the first failure fails the whole extraction. -/
def readFromFs (g : GitCmds) : Except String Repo :=
  match descriptionOf g with
  | Except.error e => Except.error e
  | Except.ok d =>
    match branches g with
    | Except.error e => Except.error e
    | Except.ok bs =>
      match remoteRefs g with
      | Except.error e => Except.error e
      | Except.ok rs =>
        Except.ok { description := d, remotes := rs, branches := bs }

/-- Transcription of `Repo::read_from_link` (src/git.rs lines 39-49):
filesystem directories are read in place; a network address is first cloned
bare into a temporary directory (`read_from_url`), whose command outcomes —
or the clone failure — the `netClone` oracle provides. -/
def readFromLink (fsCmds : Path → GitCmds)
    (netClone : String → Except String GitCmds) : Link → Except String Repo
  | Link.fs dir => readFromFs (fsCmds dir)
  | Link.net url =>
    match netClone url with
    | Except.error e => Except.error e
    | Except.ok g => readFromFs g

/-- The `View` value built by `view` (src/git.rs lines 124-131): the
extraction result is absorbed into the optional `repo` field via `.ok()`. -/
def viewVal (fsCmds : Path → GitCmds)
    (netClone : String → Except String GitCmds) (host : String)
    (link : Link) : View :=
  { host := host, link := link,
    repo := (readFromLink fsCmds netClone link).toOption }

/-- Transcription of `view` (src/git.rs lines 124-131): the function's return
type is a `Result`, but the only value it ever builds is `Ok`. -/
def view (fsCmds : Path → GitCmds)
    (netClone : String → Except String GitCmds) (host : String)
    (link : Link) : Except String View :=
  Except.ok (viewVal fsCmds netClone host link)

/-! ### Locals stage (src/cmd/find.rs lines 53-103) -/

/-- Processing of one candidate directory by the Locals stage, transcribed
from the `for_each_concurrent` body in `locals_worker` (src/cmd/find.rs lines
71-97): if the cheap probe `git::is_repo` (the `probeOk` oracle, success of
`git log --format= -1`) rejects, nothing is produced; otherwise exactly the
one `View` built by `git::view` is sent, whatever its `repo` field. -/
def localsProcessOne (probeOk : Path → Bool) (fsCmds : Path → GitCmds)
    (netClone : String → Except String GitCmds) (host : String)
    (dir : Path) : List View :=
  if probeOk dir then [viewVal fsCmds netClone host (Link.fs dir)] else []

/-- The sequence of `View`s the Locals stage sends onto the Storage channel
for a given walker output, one serialisation of the concurrent sends. -/
def localsViews (probeOk : Path → Bool) (fsCmds : Path → GitCmds)
    (netClone : String → Except String GitCmds) (host : String)
    (dirs : List Path) : List View :=
  dirs.flatMap (localsProcessOne probeOk fsCmds netClone host)

/-- The remote addresses one `View` contributes, transcribed from
`view.repo.iter().flat_map(|repo| repo.remotes.values().cloned())`. -/
def urlsOfView (v : View) : List String :=
  match v.repo with
  | none => []
  | some r => r.remotes.map (fun e => e.2)

/-- One atomic test-and-insert against the `unique: DashSet<String>` dedup
set (src/cmd/find.rs line 79): state is (seen set, urls sent so far); a url
already seen changes nothing, a new url is recorded and sent. -/
def dedupStep (acc : List String × List String) (url : String) :
    List String × List String :=
  if url ∈ acc.1 then acc else (url :: acc.1, acc.2 ++ [url])

/-- The urls forwarded to the Remotes stage, given the serialised sequence of
test-and-insert operations the concurrent Locals tasks perform (each
operation is atomic, so every interleaving is some such sequence). -/
def sentUrls (urls : List String) : List String :=
  (urls.foldl dedupStep ([], [])).2

/-- Number of `View`s in a sent sequence carrying one given
`(host, location)` pair. -/
def viewCountFor (vs : List View) (h : String) (l : Link) : Nat :=
  (vs.filter (fun v => v.host == h && v.link == l)).length

/-! ### Remotes stage (src/cmd/find.rs lines 105-142) -/

/-- The `View`s the Remotes stage produces: one inspection — hence one
`View` — per url received on its input channel. -/
def remotesViews (fsCmds : Path → GitCmds)
    (netClone : String → Except String GitCmds) (host : String)
    (urls : List String) : List View :=
  urls.map (fun url => viewVal fsCmds netClone host (Link.net url))

/-! ### Storage stage and persistent store (src/data.rs, src/cmd/find.rs
lines 144-174) -/

/-- One persisted row. -/
structure Row where
  id : Nat
  host : String
  link : Link
  repo : Option Repo
deriving DecidableEq, Repr

/-- The persistent store's table of views. -/
abbrev Db := List Row

/-- A fresh `rowid`, strictly larger than any existing one. -/
def nextId (db : Db) : Nat :=
  (db.map (fun r => r.id)).foldr max 0 + 1

/-- Modelled from the spec: the store's `upsert(host, location,
facts_or_none) -> Result<row_id>` contract with `INSERT OR REPLACE` keyed by
`(host, location)`.  The schema file `migrations/0_data.sql` and the
`Storage::store_view` method the storage worker invokes are not under src/
(src/data.rs ships the related `Storage::store_views`, whose statement is
`INSERT OR REPLACE INTO views (host, link, repo) VALUES (?, ?, ?)`); per the
spec the key is `(host, location)`, a second store of the same key
overwrites the earlier row, and the new row's identity is returned. -/
def upsert (db : Db) (host : String) (link : Link) (repo : Option Repo) :
    Db × Nat :=
  let id := nextId db
  (db.filter (fun r => !(r.host == host && r.link == link)) ++
      [{ id := id, host := host, link := link, repo := repo }],
    id)

/-- One Storage-stage step: persist one received `View` (src/cmd/find.rs
lines 147-168, the call `storage.store_view(&view)`). -/
def storeView (db : Db) (v : View) : Db × Nat :=
  upsert db v.host v.link v.repo

/-- The Storage stage's processing of the whole channel contents: every
received `View` is persisted in turn; the returned list is the row identity
of each store. -/
def storageRun (db : Db) (views : List View) : Db × List Nat :=
  views.foldl
    (fun acc v =>
      ((storeView acc.1 v).1, acc.2 ++ [(storeView acc.1 v).2]))
    (db, [])

/-- The rows a store holds for one `(host, location)` key. -/
def rowsFor (db : Db) (host : String) (link : Link) : Db :=
  db.filter (fun r => r.host == host && r.link == link)

/-- Whether a store holds any row for one `(host, location)` key. -/
def hasKey (db : Db) (host : String) (link : Link) : Bool :=
  db.any (fun r => r.host == host && r.link == link)

/-! ### Orchestrator shutdown protocol (src/cmd/find.rs lines 32-188)

The Storage channel (`views_tx`/`views_rx`) has exactly three sender clones:
one moved into `locals_worker` (line 58), one moved into `remotes_worker`
(line 107), and the original retained by the orchestrator.  A worker's clone
is released when that worker's task completes; the orchestrator's own clone
is released by the explicit `drop(views_tx)` on line 178.  The orchestrator
body is sequential: `locals_worker.await;` then `remotes_worker.await;` then
`drop(views_tx);` then `storage_worker.await` (lines 176-179). -/

/-- Joint state of the shutdown protocol: whether each producer task has
completed (and hence released its sender clone), the orchestrator's program
counter over its four sequential statements, and whether the orchestrator
has released its own extra sender clone. -/
structure PipeState where
  localsDone : Bool
  remotesDone : Bool
  pc : Nat
  released : Bool
deriving DecidableEq, Repr

/-- Initial state: both workers running, orchestrator before its first
`await`, all three sender clones alive. -/
def pipeInit : PipeState :=
  { localsDone := false, remotesDone := false, pc := 0, released := false }

/-- Transitions of the shutdown protocol.  The two worker-completion events
may occur in any order; the orchestrator's statements execute in program
order, and an `await` of a task can only complete once that task has
completed (`JoinHandle` semantics). -/
inductive PipeStep : PipeState → PipeState → Prop where
  | localsFinish (s : PipeState) (h : s.localsDone = false) :
      PipeStep s { s with localsDone := true }
  | remotesFinish (s : PipeState) (h : s.remotesDone = false) :
      PipeStep s { s with remotesDone := true }
  | awaitLocals (s : PipeState) (hpc : s.pc = 0) (hd : s.localsDone = true) :
      PipeStep s { s with pc := 1 }
  | awaitRemotes (s : PipeState) (hpc : s.pc = 1)
      (hd : s.remotesDone = true) :
      PipeStep s { s with pc := 2 }
  | dropViews (s : PipeState) (hpc : s.pc = 2) :
      PipeStep s { s with pc := 3, released := true }

/-- States reachable from the start of a pipeline run. -/
inductive PipeReach : PipeState → Prop where
  | start : PipeReach pipeInit
  | step {s t : PipeState} : PipeReach s → PipeStep s t → PipeReach t

/-- Number of live sender clones of the Storage channel.  The Storage stage's
receive loop observes the channel as closed exactly when this reaches zero
(every sender clone dropped). -/
def senderCount (s : PipeState) : Nat :=
  (bif s.localsDone then 0 else 1) + (bif s.remotesDone then 0 else 1) +
    (bif s.released then 0 else 1)

/-- Inductive invariant of the shutdown protocol: the orchestrator's first
`await` has returned only if the Locals stage completed, its second only if
the Remotes stage completed, and its own sender clone is released only past
the `drop` statement. -/
def pipeInv (s : PipeState) : Prop :=
  (1 ≤ s.pc → s.localsDone = true) ∧ (2 ≤ s.pc → s.remotesDone = true) ∧
    (s.released = true → 3 ≤ s.pc)

/-! ### Concrete fixtures for claim instances -/

/-- A tree whose `.git` marker directory contains a nested `.git` marker
directory two levels down. -/
def fsNested : Fsys :=
  [(["a"], Node.dir [".git"]),
   (["a", ".git"], Node.dir ["sub"]),
   (["a", ".git", "sub"], Node.dir [".git"]),
   (["a", ".git", "sub", ".git"], Node.dir [])]

/-- A tree holding one repository at `a/b/.git`, used with `a` in the ignore
set. -/
def fsIgnore : Fsys :=
  [(["a"], Node.dir ["b"]),
   (["a", "b"], Node.dir [".git"]),
   (["a", "b", ".git"], Node.dir [])]

/-- A tree in which the directory `r/t` (holding `r/t/.git`) is reachable
both directly and through the symbolic link `r/l`. -/
def fsTwoRoutes : Fsys :=
  [(["r"], Node.dir ["t", "l"]),
   (["r", "t"], Node.dir [".git"]),
   (["r", "t", ".git"], Node.dir []),
   (["r", "l"], Node.symlink ["r", "t"])]

/-- Command oracles of a repository whose `description` file is unreadable
and which has no branches and no remotes. -/
def cmdsNoDescr : GitCmds :=
  { descr := Except.error "No such file or directory",
    showRef := Except.ok [],
    revList := fun _ => Except.ok [],
    remoteV := Except.ok [] }

/-- Command oracles of a repository with one branch whose leaf hash resolves
to zero root commits. -/
def cmdsZeroRoots : GitCmds :=
  { descr := Except.ok "a described repo",
    showRef := Except.ok ["d34db33f refs/heads/main"],
    revList := fun _ => Except.ok [],
    remoteV := Except.ok [] }

/-- A clone oracle under which every network clone fails. -/
def cloneFail : String → Except String GitCmds :=
  fun _ => Except.error "clone failed"

/-! ## Theorems -/

/-- Every transition of the shutdown protocol preserves its inductive
invariant. -/
theorem pipeStep_inv {s t : PipeState} (hst : PipeStep s t)
    (hs : pipeInv s) : pipeInv t := by
  obtain ⟨h1, h2, h3⟩ := hs
  cases hst with
  | localsFinish h => exact ⟨fun _ => rfl, h2, h3⟩
  | remotesFinish h => exact ⟨h1, fun _ => rfl, h3⟩
  | awaitLocals hpc hd =>
    refine ⟨fun _ => hd, fun hle => ?_, fun hr => ?_⟩
    · simp at hle
    · exact absurd (h3 hr) (by omega)
  | awaitRemotes hpc hd =>
    exact ⟨fun _ => h1 (by omega), fun _ => hd,
      fun hr => absurd (h3 hr) (by omega)⟩
  | dropViews hpc =>
    exact ⟨fun _ => h1 (by omega), fun _ => h2 (by omega),
      fun _ => Nat.le.refl⟩

/-- Every reachable state of the shutdown protocol satisfies the inductive
invariant. -/
theorem pipeReach_inv {s : PipeState} (h : PipeReach s) : pipeInv s := by
  induction h with
  | start =>
    exact ⟨fun h => absurd h (by decide), fun h => absurd h (by decide),
      fun h => nomatch h⟩
  | step _ hst ih => exact pipeStep_inv hst ih

/-- C1: in every pipeline run, the orchestrator releases its own extra clone
of the Storage-channel sender only after both the Locals stage and the
Remotes stage have completed; consequently the Storage stage observes the
Views channel as closed (zero live sender clones) only after both producer
stages have finished and released their sender handles. -/
theorem claim_C1_sender_release_order :
    (∀ s : PipeState, PipeReach s → s.released = true →
        s.localsDone = true ∧ s.remotesDone = true) ∧
    (∀ s : PipeState, PipeReach s → senderCount s = 0 →
        s.localsDone = true ∧ s.remotesDone = true) := by
  constructor
  · intro s hs hr
    obtain ⟨h1, h2, h3⟩ := pipeReach_inv hs
    exact ⟨h1 (by have := h3 hr; omega), h2 (by have := h3 hr; omega)⟩
  · intro s _ hz
    constructor
    · cases hl : s.localsDone
      · rw [senderCount, hl] at hz
        simp at hz
      · rfl
    · cases hm : s.remotesDone
      · rw [senderCount, hm] at hz
        simp at hz
      · rfl

/-- Witness for C1: the state reached by running the Locals stage to
completion, the Remotes stage to completion, the orchestrator's two awaits
and then its `drop(views_tx)` is reachable and released; the theorem yields
that both stages are indeed complete there. -/
theorem claim_C1_sender_release_order_witness :
    PipeState.localsDone ⟨true, true, 3, true⟩ = true ∧
      PipeState.remotesDone ⟨true, true, 3, true⟩ = true := by
  have r1 : PipeReach ⟨true, false, 0, false⟩ :=
    PipeReach.step PipeReach.start (PipeStep.localsFinish pipeInit rfl)
  have r2 : PipeReach ⟨true, true, 0, false⟩ :=
    PipeReach.step r1 (PipeStep.remotesFinish ⟨true, false, 0, false⟩ rfl)
  have r3 : PipeReach ⟨true, true, 1, false⟩ :=
    PipeReach.step r2 (PipeStep.awaitLocals ⟨true, true, 0, false⟩ rfl rfl)
  have r4 : PipeReach ⟨true, true, 2, false⟩ :=
    PipeReach.step r3 (PipeStep.awaitRemotes ⟨true, true, 1, false⟩ rfl rfl)
  have r5 : PipeReach ⟨true, true, 3, true⟩ :=
    PipeReach.step r4 (PipeStep.dropViews ⟨true, true, 2, false⟩ rfl)
  exact claim_C1_sender_release_order.1 ⟨true, true, 3, true⟩ r5 rfl

/-- Invariant of the fold over the `unique` dedup set: starting from a seen
set and a sent list holding the same addresses, with the sent list free of
duplicates, the fold keeps the sent list duplicate-free and its members are
exactly the old ones plus the processed urls. -/
theorem dedup_fold_spec (urls : List String) :
    ∀ seen sent : List String, sent.Nodup → (∀ u, u ∈ sent ↔ u ∈ seen) →
      (urls.foldl dedupStep (seen, sent)).2.Nodup ∧
        ∀ u, u ∈ (urls.foldl dedupStep (seen, sent)).2 ↔
          u ∈ sent ∨ u ∈ urls := by
  induction urls with
  | nil =>
    intro seen sent hnd _
    exact ⟨hnd, fun u => by simp⟩
  | cons url rest ih =>
    intro seen sent hnd hmem
    by_cases h : url ∈ seen
    · have heq : dedupStep (seen, sent) url = (seen, sent) := by
        simp [dedupStep, h]
      rw [List.foldl_cons, heq]
      obtain ⟨hnd', hmem'⟩ := ih seen sent hnd hmem
      refine ⟨hnd', fun u => ?_⟩
      rw [hmem' u]
      constructor
      · rintro (hs | hr)
        · exact Or.inl hs
        · exact Or.inr (List.mem_cons_of_mem _ hr)
      · rintro (hs | hr)
        · exact Or.inl hs
        · rcases List.mem_cons.mp hr with hu | hr'
          · exact Or.inl ((hmem u).mpr (hu ▸ h))
          · exact Or.inr hr'
    · have heq : dedupStep (seen, sent) url =
          (url :: seen, sent ++ [url]) := by
        simp [dedupStep, h]
      rw [List.foldl_cons, heq]
      have hnotin : url ∉ sent := fun hc => h ((hmem url).mp hc)
      have hnd2 : (sent ++ [url]).Nodup := by
        simp [List.nodup_append, hnd, hnotin]
      have hmem2 : ∀ u, u ∈ sent ++ [url] ↔ u ∈ url :: seen := by
        intro u
        simp only [List.mem_append, List.mem_cons, List.mem_singleton,
          hmem u]
        tauto
      obtain ⟨hnd', hmem'⟩ := ih (url :: seen) (sent ++ [url]) hnd2 hmem2
      refine ⟨hnd', fun u => ?_⟩
      rw [hmem' u]
      simp only [List.mem_append, List.mem_cons, List.mem_singleton]
      tauto

/-- C2: over any run, considering the serialised sequence of remote
addresses the Locals stage encounters (with repeats), only addresses newly
inserted into the `unique` dedup set are forwarded: the forwarded list has
no duplicates, contains exactly the encountered addresses, and its length is
the number N of distinct addresses, so the Remotes stage performs exactly N
inspections (one `View` per forwarded address), never more. -/
theorem claim_C2_remote_dedup (urls : List String) :
    (sentUrls urls).Nodup ∧
      (∀ u, u ∈ sentUrls urls ↔ u ∈ urls) ∧
      (sentUrls urls).length = urls.toFinset.card ∧
      ∀ (fsCmds : Path → GitCmds)
        (netClone : String → Except String GitCmds) (host : String),
        (remotesViews fsCmds netClone host (sentUrls urls)).length =
          urls.toFinset.card := by
  obtain ⟨hnd, hmem⟩ := dedup_fold_spec urls [] [] List.nodup_nil (by simp)
  have hmem' : ∀ u, u ∈ sentUrls urls ↔ u ∈ urls := by
    intro u
    rw [sentUrls, hmem u]
    simp
  have hlen : (sentUrls urls).length = urls.toFinset.card := by
    have h1 : (sentUrls urls).toFinset = urls.toFinset := by
      ext u
      simp only [List.mem_toFinset]
      exact hmem' u
    calc (sentUrls urls).length = (sentUrls urls).toFinset.card :=
          (List.toFinset_card_of_nodup hnd).symm
      _ = urls.toFinset.card := by rw [h1]
  refine ⟨hnd, hmem', hlen, fun fsCmds netClone host => ?_⟩
  rw [remotesViews, List.length_map, hlen]

/-- C3: for every candidate directory confirmed by the cheap probe, the
Locals stage emits exactly the one `View` built by `git::view` onto the
Storage channel — also when facts extraction failed, in which case the
emitted `View` carries `repo = none` — and for every candidate the probe
rejects, no output at all is produced. -/
theorem claim_C3_probe_gated_single_view (probeOk : Path → Bool)
    (fsCmds : Path → GitCmds) (netClone : String → Except String GitCmds)
    (host : String) (dir : Path) :
    (probeOk dir = true →
        localsProcessOne probeOk fsCmds netClone host dir =
          [viewVal fsCmds netClone host (Link.fs dir)]) ∧
      (probeOk dir = true →
        ∀ e, readFromLink fsCmds netClone (Link.fs dir) = Except.error e →
          (localsProcessOne probeOk fsCmds netClone host dir).map
              View.repo = [none]) ∧
      (probeOk dir = false →
        localsProcessOne probeOk fsCmds netClone host dir = []) := by
  refine ⟨fun hp => ?_, fun hp e he => ?_, fun hp => ?_⟩
  · simp [localsProcessOne, hp]
  · simp [localsProcessOne, hp, viewVal, he, Except.toOption]
  · simp [localsProcessOne, hp]

/-- Witness for C3: a probe-accepted directory whose description file is
unreadable still yields exactly one `View`, with `repo = none`; a rejected
candidate yields nothing. -/
theorem claim_C3_probe_gated_single_view_witness :
    localsProcessOne (fun _ => true) (fun _ => cmdsNoDescr) cloneFail "h"
        ["a"] =
        [viewVal (fun _ => cmdsNoDescr) cloneFail "h" (Link.fs ["a"])] ∧
      (localsProcessOne (fun _ => true) (fun _ => cmdsNoDescr) cloneFail
          "h" ["a"]).map View.repo = [none] ∧
      localsProcessOne (fun _ => false) (fun _ => cmdsNoDescr) cloneFail
        "h" ["a"] = [] :=
  ⟨(claim_C3_probe_gated_single_view (fun _ => true) (fun _ => cmdsNoDescr)
      cloneFail "h" ["a"]).1 rfl,
    (claim_C3_probe_gated_single_view (fun _ => true) (fun _ => cmdsNoDescr)
      cloneFail "h" ["a"]).2.1 rfl "No such file or directory" rfl,
    (claim_C3_probe_gated_single_view (fun _ => false)
      (fun _ => cmdsNoDescr) cloneFail "h" ["a"]).2.2 rfl⟩

/-- C4: whenever the walker pops a directory whose base name equals the
target marker name, it yields it as a match with the frontier otherwise
unchanged — the directory's children are never enumerated or pushed — and
hence on a tree whose `.git` marker directory contains a nested `.git`
marker directory, only the outer one is reported. -/
theorem claim_C4_marker_dir_is_leaf :
    (∀ (fs : Fsys) (fuel : Nat) (tn : Name) (fo : Bool) (ig : List Path)
        (path : Path) (rest : List Path) (children : List Name),
        ig.contains path = false →
        fs.existsAt path = true →
        fs.lookup path = some (Node.dir children) →
        baseName path = some tn →
        Dirs.next fs (fuel + 1) ⟨tn, fo, ig, path :: rest⟩ =
          some (path, ⟨tn, fo, ig, rest⟩)) ∧
      Dirs.run fsNested 20 (findDirs ["a"] ".git" false []) =
        [["a", ".git"]] := by
  constructor
  · intro fs fuel tn fo ig path rest children hig hex hlk hbn
    have hig' : path ∉ ig := by simpa using hig
    simp [Dirs.next, hig', hex, hlk, hbn]
  · decide

/-- Witness for C4: popping the marker directory `a/.git` (which has the
child `sub`) yields it and leaves the rest of the frontier untouched. -/
theorem claim_C4_marker_dir_is_leaf_witness :
    Dirs.next fsNested 1 ⟨".git", false, [], [["a", ".git"]]⟩ =
      some (["a", ".git"], ⟨".git", false, [], []⟩) :=
  claim_C4_marker_dir_is_leaf.1 fsNested 0 ".git" false [] ["a", ".git"] []
    ["sub"] (by decide) (by decide) (by decide) (by decide)

/-- C5: membership of a popped path in the ignore set is tested by exact
path equality only: an ignored path is skipped with nothing pushed (its
subtree is never explored), membership coincides with exact list-of-names
equality, a root present verbatim in the ignore set yields zero matches,
and a root merely extended from (prefixed by, but not equal to) an ignored
path is still walked. -/
theorem claim_C5_ignore_exact :
    (∀ (fs : Fsys) (fuel : Nat) (tn : Name) (fo : Bool) (ig : List Path)
        (path : Path) (rest : List Path),
        ig.contains path = true →
        Dirs.next fs (fuel + 1) ⟨tn, fo, ig, path :: rest⟩ =
          Dirs.next fs fuel ⟨tn, fo, ig, rest⟩) ∧
      (∀ (ig : List Path) (path : Path),
        ig.contains path = true ↔ path ∈ ig) ∧
      Dirs.run fsIgnore 20 (findDirs ["a"] ".git" false [["a"]]) = [] ∧
      Dirs.run fsIgnore 20 (findDirs ["a", "b"] ".git" false [["a"]]) =
        [["a", "b", ".git"]] ∧
      (∃ t, ["a"] ++ t = ["a", "b"]) ∧ (["a"] : Path) ≠ ["a", "b"] := by
  refine ⟨fun fs fuel tn fo ig path rest hig => ?_, fun ig path => ?_,
    by decide, by decide, ⟨["b"], rfl⟩, by decide⟩
  · have hig' : path ∈ ig := by simpa using hig
    simp [Dirs.next, hig']
  · simp

/-- Witness for C5: popping the ignored root `a` skips it, exploring
nothing beneath it. -/
theorem claim_C5_ignore_exact_witness :
    Dirs.next fsIgnore 1 ⟨".git", false, [["a"]], [["a"]]⟩ =
      Dirs.next fsIgnore 0 ⟨".git", false, [["a"]], []⟩ :=
  claim_C5_ignore_exact.1 fsIgnore 0 ".git" false [["a"]] ["a"] []
    (by decide)

/-- A successful `branch_roots` lookup never returns an empty root list
(the zero-roots case is a `bail!`). -/
theorem branchRoots_ne_nil {g : GitCmds} {leaf : String}
    {roots : List String} (h : branchRoots g leaf = Except.ok roots) :
    roots ≠ [] := by
  rw [branchRoots] at h
  split at h
  · exact absurd h (by simp)
  · split at h
    · exact absurd h (by simp)
    · rename_i hrs
      simp only [Except.ok.injEq] at h
      exact h ▸ hrs

/-- If the root lookup of some listed branch leaf fails, the whole
`branches` loop fails, whatever the accumulator. -/
theorem branchesGo_error {g : GitCmds} {nm leaf : String} {e : String}
    (he : branchRoots g leaf = Except.error e) :
    ∀ leaves : List (String × String), (nm, leaf) ∈ leaves →
      ∀ acc, ∃ e', branchesGo g acc leaves = Except.error e' := by
  intro leaves
  induction leaves with
  | nil => exact fun h => absurd h (List.not_mem_nil _)
  | cons nl rest ih =>
    intro hmem acc
    rcases List.mem_cons.mp hmem with heq | hr
    · refine ⟨e, ?_⟩
      rw [branchesGo, ← heq]
      simp only [he]
    · cases hbr : branchRoots g nl.2 with
      | error e0 =>
        refine ⟨e0, ?_⟩
        rw [branchesGo]
        simp only [hbr]
      | ok roots =>
        obtain ⟨e', h'⟩ := ih hr
          (insertAssoc acc nl.1 { roots := roots, leaf := nl.2 })
        refine ⟨e', ?_⟩
        rw [branchesGo]
        simp only [hbr, h']

/-- Every branch the `branches` loop successfully builds carries a non-empty
root list. -/
theorem branchesGo_roots_nonempty {g : GitCmds} :
    ∀ (leaves : List (String × String)) (acc bs : List (String × Branch)),
      (∀ p ∈ acc, p.2.roots ≠ []) →
      branchesGo g acc leaves = Except.ok bs →
      ∀ p ∈ bs, p.2.roots ≠ [] := by
  intro leaves
  induction leaves with
  | nil =>
    intro acc bs hacc h
    rw [branchesGo] at h
    simp only [Except.ok.injEq] at h
    exact h ▸ hacc
  | cons nl rest ih =>
    intro acc bs hacc h
    rw [branchesGo] at h
    cases hbr : branchRoots g nl.2 with
    | error e =>
      rw [hbr] at h
      exact absurd h (by simp)
    | ok roots =>
      rw [hbr] at h
      refine ih _ bs ?_ h
      intro p hp
      rcases List.mem_append.mp hp with hpl | hpr
      · exact hacc p (List.mem_of_mem_filter hpl)
      · have hpe : p = (nl.1, { roots := roots, leaf := nl.2 }) := by
          simpa using hpr
        rw [hpe]
        exact branchRoots_ne_nil hbr

/-- The row just upserted is present under its `(host, location)` key. -/
theorem hasKey_upsert (db : Db) (h : String) (l : Link) (r : Option Repo) :
    hasKey (upsert db h l r).1 h l = true := by
  simp [hasKey, upsert, List.any_append]

/-- C6: when the inspection of a repository finds a branch leaf that
resolves to zero root commits, the whole facts extraction for that location
fails — the `View` carries `repo = none`, and a successful extraction never
contains a branch with an empty root set — and the `View` is still persisted
(its key is present after the Storage stage's upsert), not dropped. -/
theorem claim_C6_zero_roots_extraction_failure (g : GitCmds)
    (leaves : List (String × String)) (nm leaf : String)
    (hleaves : branchLeaves g = Except.ok leaves)
    (hmem : (nm, leaf) ∈ leaves)
    (hzero : g.revList leaf = Except.ok []) :
    (∃ e, branches g = Except.error e) ∧
      (∃ e, readFromFs g = Except.error e) ∧
      (∀ (netClone : String → Except String GitCmds) (host : String)
          (dir : Path),
        (viewVal (fun _ => g) netClone host (Link.fs dir)).repo = none ∧
        ∀ db : Db,
          hasKey (storeView db
              (viewVal (fun _ => g) netClone host (Link.fs dir))).1
            host (Link.fs dir) = true) ∧
      (∀ (g' : GitCmds) (bs : List (String × Branch)),
        branches g' = Except.ok bs → ∀ p ∈ bs, p.2.roots ≠ []) := by
  have herr : branchRoots g leaf =
      Except.error "Found 0 roots for leaf hash" := by
    rw [branchRoots, hzero]
    rfl
  have hb : ∃ e, branches g = Except.error e := by
    obtain ⟨e', h'⟩ := branchesGo_error herr leaves hmem []
    refine ⟨e', ?_⟩
    rw [branches, hleaves]
    exact h'
  have hf : ∃ e, readFromFs g = Except.error e := by
    obtain ⟨e, hbe⟩ := hb
    cases hd : descriptionOf g with
    | error e0 => exact ⟨e0, by rw [readFromFs, hd]⟩
    | ok d => exact ⟨e, by rw [readFromFs, hd, hbe]⟩
  have hfc := hf
  obtain ⟨e2, hf2⟩ := hfc
  refine ⟨hb, hf, fun netClone host dir => ⟨?_, fun db => ?_⟩,
    fun g' bs hok => ?_⟩
  · simp [viewVal, readFromLink, hf2, Except.toOption]
  · exact hasKey_upsert db host (Link.fs dir) _
  · rw [branches] at hok
    cases hl : branchLeaves g' with
    | error e =>
      rw [hl] at hok
      exact absurd hok (by simp)
    | ok leaves' =>
      rw [hl] at hok
      exact branchesGo_roots_nonempty leaves' [] bs (by simp) hok

/-- Witness for C6: a repository with one branch `main` whose leaf resolves
to zero roots has a failing extraction, a `repo = none` view, and is still
persisted. -/
theorem claim_C6_zero_roots_extraction_failure_witness :
    (∃ e, branches cmdsZeroRoots = Except.error e) ∧
      (∃ e, readFromFs cmdsZeroRoots = Except.error e) ∧
      (∀ (netClone : String → Except String GitCmds) (host : String)
          (dir : Path),
        (viewVal (fun _ => cmdsZeroRoots) netClone host
            (Link.fs dir)).repo = none ∧
        ∀ db : Db,
          hasKey (storeView db
              (viewVal (fun _ => cmdsZeroRoots) netClone host
                (Link.fs dir))).1
            host (Link.fs dir) = true) ∧
      (∀ (g' : GitCmds) (bs : List (String × Branch)),
        branches g' = Except.ok bs → ∀ p ∈ bs, p.2.roots ≠ []) :=
  claim_C6_zero_roots_extraction_failure cmdsZeroRoots
    [("main", "d34db33f")] "main" "d34db33f" rfl (by simp) rfl

/-- Counts over an appended sent sequence add up. -/
theorem viewCountFor_append (a b : List View) (h : String) (l : Link) :
    viewCountFor (a ++ b) h l = viewCountFor a h l + viewCountFor b h l := by
  simp [viewCountFor, List.filter_append]

/-- A single sent `View` contributes nothing to the count of a different
location. -/
theorem viewCountFor_single_ne (v : View) (h : String) (l : Link)
    (hne : v.link ≠ l) : viewCountFor [v] h l = 0 := by
  simp [viewCountFor, hne]

/-- A directory the Locals stage never receives contributes no `View` for
its location. -/
theorem localsViews_count_zero (probeOk : Path → Bool)
    (fsCmds : Path → GitCmds) (netClone : String → Except String GitCmds)
    (host h' : String) (d : Path) :
    ∀ dirs : List Path, d ∉ dirs →
      viewCountFor (localsViews probeOk fsCmds netClone host dirs) h'
        (Link.fs d) = 0 := by
  intro dirs
  induction dirs with
  | nil => intro _; rfl
  | cons d0 rest ih =>
    intro hd
    have hd0 : d0 ≠ d := fun hc => hd (hc ▸ List.mem_cons_self d0 rest)
    have hdr : d ∉ rest := fun hc => hd (List.mem_cons_of_mem _ hc)
    rw [localsViews, List.flatMap_cons, viewCountFor_append]
    rw [localsViews] at ih
    rw [ih hdr, Nat.add_zero]
    by_cases hp : probeOk d0 = true
    · rw [localsProcessOne, if_pos hp]
      exact viewCountFor_single_ne _ h' (Link.fs d)
        (fun hc => hd0 (by simpa [viewVal] using hc))
    · rw [localsProcessOne, if_neg hp]
      rfl

/-- C7 counterexample: on a tree where the directory `r/t/.git` is reachable
both directly and through the followed symbolic link `r/l`, the walker
yields the same directory twice and the Locals stage sends two `View`s for
the single pair `("h", Fs r/t/.git)` — more than one. -/
theorem claim_C7_counterexample :
    viewCountFor
        (localsViews (fun _ => true) (fun _ => cmdsNoDescr) cloneFail "h"
          (Dirs.run fsTwoRoutes 20 (findDirs ["r"] ".git" true [])))
        "h" (Link.fs ["r", "t", ".git"]) = 2 ∧
      ¬(viewCountFor
          (localsViews (fun _ => true) (fun _ => cmdsNoDescr) cloneFail "h"
            (Dirs.run fsTwoRoutes 20 (findDirs ["r"] ".git" true [])))
          "h" (Link.fs ["r", "t", ".git"]) ≤ 1) := by
  constructor
  · decide
  · decide

/-- C7 (amended): the Locals stage produces exactly one `View` per
probe-accepted candidate the walker yields; hence when the walker yields
each directory at most once, at most one `View` per `(host, location)` pair
is sent — but a directory the walker reaches by more than one route (for
example through a followed symbolic link) is yielded once per route and
produces one `View` each time. -/
theorem claim_C7_amended_one_view_per_yield (probeOk : Path → Bool)
    (fsCmds : Path → GitCmds) (netClone : String → Except String GitCmds)
    (host : String) :
    (∀ dirs : List Path,
        (localsViews probeOk fsCmds netClone host dirs).length =
          (dirs.filter probeOk).length) ∧
      (∀ dirs : List Path, dirs.Nodup → ∀ (h' : String) (l : Link),
        viewCountFor (localsViews probeOk fsCmds netClone host dirs) h' l
          ≤ 1) := by
  constructor
  · intro dirs
    induction dirs with
    | nil => rfl
    | cons d rest ih =>
      rw [localsViews, List.flatMap_cons, List.length_append,
        List.filter_cons]
      rw [localsViews] at ih
      by_cases hp : probeOk d = true
      · rw [localsProcessOne, if_pos hp, hp]
        simp [ih]
        omega
      · rw [localsProcessOne, if_neg hp]
        simp only [Bool.not_eq_true] at hp
        rw [hp]
        simpa using ih
  · intro dirs
    induction dirs with
    | nil =>
      intro _ h' l
      exact Nat.zero_le 1
    | cons d rest ih =>
      intro hnd h' l
      have hdr : d ∉ rest := (List.nodup_cons.mp hnd).1
      have hndr : rest.Nodup := (List.nodup_cons.mp hnd).2
      rw [localsViews, List.flatMap_cons, viewCountFor_append]
      rw [localsViews] at ih
      by_cases hl : l = Link.fs d
      · have hz : viewCountFor
            (rest.flatMap (localsProcessOne probeOk fsCmds netClone host))
            h' l = 0 := by
          rw [hl]
          exact localsViews_count_zero probeOk fsCmds netClone host h' d
            rest hdr
        rw [hz, Nat.add_zero]
        calc viewCountFor (localsProcessOne probeOk fsCmds netClone host d)
              h' l
            ≤ (localsProcessOne probeOk fsCmds netClone host d).length :=
              List.length_filter_le _ _
          _ ≤ 1 := by
              rw [localsProcessOne]
              by_cases hp : probeOk d = true
              · rw [if_pos hp]
                exact Nat.le.refl
              · rw [if_neg hp]
                exact Nat.zero_le 1
      · have hz : viewCountFor
            (localsProcessOne probeOk fsCmds netClone host d) h' l = 0 := by
          rw [localsProcessOne]
          by_cases hp : probeOk d = true
          · rw [if_pos hp]
            exact viewCountFor_single_ne _ h' l fun hc => hl (hc ▸ rfl)
          · rw [if_neg hp]
            rfl
        rw [hz, Nat.zero_add]
        exact ih hndr h' l

/-- Witness for C7 (amended): on a duplicate-free walker output, the count
for a concrete pair is at most one. -/
theorem claim_C7_amended_one_view_per_yield_witness :
    viewCountFor
        (localsViews (fun _ => true) (fun _ => cmdsNoDescr) cloneFail "h"
          [["a"]]) "h" (Link.fs ["a"]) ≤ 1 :=
  (claim_C7_amended_one_view_per_yield (fun _ => true)
      (fun _ => cmdsNoDescr) cloneFail "h").2 [["a"]] (by simp) "h"
    (Link.fs ["a"])

/-- After an upsert, the upserted key holds exactly the one new row. -/
theorem rowsFor_upsert_self (db : Db) (h : String) (l : Link)
    (r : Option Repo) :
    rowsFor (upsert db h l r).1 h l =
      [{ id := nextId db, host := h, link := l, repo := r }] := by
  rw [rowsFor, upsert]
  rw [List.filter_append, List.filter_filter]
  have h1 : List.filter
      (fun a => a.host == h && a.link == l &&
        !(a.host == h && a.link == l)) db = [] := by
    apply List.filter_eq_nil_iff.mpr
    intro a _
    simp
  rw [h1, List.nil_append]
  simp

/-- An upsert leaves every other `(host, location)` key's rows unchanged. -/
theorem rowsFor_upsert_other (db : Db) (h : String) (l : Link)
    (r : Option Repo) (h' : String) (l' : Link)
    (hne : ¬(h' = h ∧ l' = l)) :
    rowsFor (upsert db h l r).1 h' l' = rowsFor db h' l' := by
  rw [rowsFor, upsert, rowsFor]
  rw [List.filter_append, List.filter_filter]
  have h1 : List.filter (fun (a : Row) => a.host == h' && a.link == l')
      [{ id := nextId db, host := h, link := l, repo := r }] = [] := by
    apply List.filter_eq_nil_iff.mpr
    intro a ha
    simp only [List.mem_singleton] at ha
    subst ha
    simp only [Bool.and_eq_true, beq_iff_eq, not_and]
    intro hh hl
    exact hne ⟨hh.symm, hl.symm⟩
  rw [h1, List.append_nil]
  apply List.filter_congr
  intro a _
  by_cases ha : (a.host == h' && a.link == l') = true
  · have hah : a.host = h' := by
      simpa using (Bool.and_eq_true _ _ |>.mp ha).1
    have hal : a.link = l' := by
      simpa using (Bool.and_eq_true _ _ |>.mp ha).2
    have hnk : (a.host == h && a.link == l) = false := by
      rw [hah, hal]
      by_cases hh : h' = h
      · by_cases hl : l' = l
        · exact absurd ⟨hh, hl⟩ hne
        · simp [hl]
      · simp [hh]
    rw [hnk]
    simp [ha]
  · simp only [Bool.not_eq_true] at ha
    rw [ha]
    simp

/-- C8: the store's upsert, as invoked by the Storage stage, returns a row
identity and replaces by `(host, location)` key: after the Storage stage
receives the same key twice, the store holds exactly one row for it, with
the later facts — no duplicate rows, no history — while every other key is
untouched. -/
theorem claim_C8_upsert_replace (db : Db) (h : String) (l : Link)
    (r1 r2 : Option Repo) :
    (storageRun db [{ host := h, link := l, repo := r1 },
        { host := h, link := l, repo := r2 }] =
      ((upsert (upsert db h l r1).1 h l r2).1,
        [(upsert db h l r1).2, (upsert (upsert db h l r1).1 h l r2).2])) ∧
      rowsFor (upsert (upsert db h l r1).1 h l r2).1 h l =
        [{ id := (upsert (upsert db h l r1).1 h l r2).2, host := h,
            link := l, repo := r2 }] ∧
      (upsert db h l r1).2 = nextId db ∧
      (∀ (h' : String) (l' : Link), ¬(h' = h ∧ l' = l) →
        rowsFor (upsert db h l r1).1 h' l' = rowsFor db h' l') := by
  refine ⟨rfl, ?_, rfl, rowsFor_upsert_other db h l r1⟩
  exact rowsFor_upsert_self (upsert db h l r1).1 h l r2

/-- Witness for C8: upserting key `("h", Net u)` into the empty store leaves
the unrelated key `("h2", Net u)` without rows. -/
theorem claim_C8_upsert_replace_witness :
    rowsFor (upsert ([] : Db) "h" (Link.net "u") none).1 "h2"
        (Link.net "u") = rowsFor ([] : Db) "h2" (Link.net "u") :=
  (claim_C8_upsert_replace [] "h" (Link.net "u") none none).2.2.2 "h2"
    (Link.net "u") (by simp)

/-- C9: for every host string and every location, `view` returns a
successfully built `View` and never an error; a failure of the underlying
facts extraction is absorbed into the optional `repo` field as `none`
rather than propagated to the caller. -/
theorem claim_C9_view_never_errors (fsCmds : Path → GitCmds)
    (netClone : String → Except String GitCmds) (host : String)
    (link : Link) :
    view fsCmds netClone host link =
        Except.ok (viewVal fsCmds netClone host link) ∧
      (view fsCmds netClone host link).isOk = true ∧
      ∀ e, readFromLink fsCmds netClone link = Except.error e →
        (viewVal fsCmds netClone host link).repo = none := by
  refine ⟨rfl, rfl, fun e he => ?_⟩
  simp [viewVal, he, Except.toOption]

/-- Witness for C9: on a location whose extraction fails (unreadable
description file), `view` still returns `Ok` and the view's `repo` is
`none`. -/
theorem claim_C9_view_never_errors_witness :
    view (fun _ => cmdsNoDescr) cloneFail "h" (Link.fs ["a"]) =
        Except.ok (viewVal (fun _ => cmdsNoDescr) cloneFail "h"
          (Link.fs ["a"])) ∧
      (viewVal (fun _ => cmdsNoDescr) cloneFail "h" (Link.fs ["a"])).repo =
        none := by
  obtain ⟨h1, _, h3⟩ := claim_C9_view_never_errors (fun _ => cmdsNoDescr)
    cloneFail "h" (Link.fs ["a"])
  exact ⟨h1, h3 "No such file or directory" rfl⟩

/-- C10: given a readable description file, the extracted description is
`none` exactly when the content begins with `Unnamed repository;`; and when
the description file is unreadable, the whole facts extraction for the
location fails, so the `View` carries `repo = none` whatever the remaining
command outcomes. -/
theorem claim_C10_description_semantics (g : GitCmds) :
    (∀ s, g.descr = Except.ok s →
        descriptionOf g = Except.ok
          (if startsWithStr s "Unnamed repository;" then none
            else some s) ∧
        (descriptionOf g = Except.ok none ↔
          startsWithStr s "Unnamed repository;" = true)) ∧
      ∀ e, g.descr = Except.error e →
        readFromFs g = Except.error e ∧
        ∀ (netClone : String → Except String GitCmds) (host : String)
          (dir : Path),
          (viewVal (fun _ => g) netClone host (Link.fs dir)).repo =
            none := by
  constructor
  · intro s hs
    have hd : descriptionOf g = Except.ok
        (if startsWithStr s "Unnamed repository;" then none
          else some s) := by
      rw [descriptionOf, hs]
      rfl
    refine ⟨hd, ?_⟩
    rw [hd]
    by_cases hu : startsWithStr s "Unnamed repository;" = true
    · simp [hu]
    · simp only [Bool.not_eq_true] at hu
      simp [hu]
  · intro e he
    have hd : descriptionOf g = Except.error e := by
      rw [descriptionOf, he]
      rfl
    have hf : readFromFs g = Except.error e := by
      rw [readFromFs, hd]
    exact ⟨hf, fun netClone host dir => by
      simp [viewVal, readFromLink, hf, Except.toOption]⟩

/-- Witness for C10: a description reading `a described repo` is kept, and
an unreadable description file fails the whole extraction, leaving
`repo = none`. -/
theorem claim_C10_description_semantics_witness :
    descriptionOf cmdsZeroRoots = Except.ok (some "a described repo") ∧
      readFromFs cmdsNoDescr =
        Except.error "No such file or directory" ∧
      (viewVal (fun _ => cmdsNoDescr) cloneFail "h"
          (Link.fs ["a"])).repo = none := by
  obtain ⟨hd, _⟩ := (claim_C10_description_semantics cmdsZeroRoots).1
    "a described repo" rfl
  obtain ⟨hf, hv⟩ := (claim_C10_description_semantics cmdsNoDescr).2
    "No such file or directory" rfl
  exact ⟨hd, hf, hv cloneFail "h" ["a"]⟩

end GitTracker
